import Mathlib

/-!
Verification of the Bayesian linear-model core of
`examples/contrib/oed/models/bayes_linear.py`.

The file shallowly embeds the source's operations:

* a shape calculus for torch's right-aligned broadcasting, `expand`,
  `cat`, `matmul` and `squeeze`, used to trace the sample sites produced
  by `bayesian_linear_model` and `normal_inv_gamma_family_guide`;
* `group_assignment_matrix` over exact rationals, with Python slice
  clamping and `int()` truncation toward zero;
* `analytic_posterior_cov` over exact rational matrices.

Machine floats are idealised as `ℚ`.
-/

set_option maxRecDepth 8000

namespace BayesLinear

/-! ### Shape calculus -/

abbrev Shape := List Nat

/-- Broadcast a pair of dimensions, as torch does: equal dims stay,
a dimension of size 1 stretches to the other side's size. -/
def bdim (a b : Nat) : Option Nat :=
  if a = b then some a else if a = 1 then some b else if b = 1 then some a else none

/-- Right-aligned broadcasting, on reversed dimension lists. -/
def broadcastRev : List Nat → List Nat → Option (List Nat)
  | [], ys => some ys
  | x :: xs, [] => some (x :: xs)
  | x :: xs, y :: ys =>
    match bdim x y, broadcastRev xs ys with
    | some d, some rest => some (d :: rest)
    | _, _ => none

/-- Shape of the broadcast of two tensors, `none` when incompatible. -/
def broadcast (s t : Shape) : Option Shape :=
  (broadcastRev s.reverse t.reverse).map List.reverse

/-- `torch.Tensor.expand` check, on reversed dimension lists: the source
shape is right-aligned against the target and each aligned source
dimension must equal the target dimension or be 1. -/
def expandRevOK : List Nat → List Nat → Bool
  | [], _ => true
  | _ :: _, [] => false
  | a :: as, b :: bs => (a == b || a == 1) && expandRevOK as bs

/-- Whether `t.expand(target)` succeeds for a tensor of shape `s`. -/
def expandsTo (s target : Shape) : Bool := expandRevOK s.reverse target.reverse

/-! ### `group_assignment_matrix` (source lines 246-266) -/

/-- Python `int()` applied to an exact rational: truncation toward zero. -/
def truncQ (q : ℚ) : ℤ := Int.tdiv q.num q.den

/-- Python slice-endpoint normalisation for an axis of length `n`:
negative indices count from the end, results are clamped to `[0, n]`. -/
def sliceIdx (n : Nat) (j : ℤ) : Nat :=
  min ((if j < 0 then (n : ℤ) + j else j).toNat) n

/-- `X[lo:hi, col] = 1.` on a boolean matrix given as a function. -/
def setColSlice (X : Nat → Nat → Bool) (lo hi col : Nat) : Nat → Nat → Bool :=
  fun r c => if c = col ∧ lo ≤ r ∧ r < hi then true else X r c

/-- The `for col, i in enumerate(design)` loop of `group_assignment_matrix`:
truncate each entry, write a run of ones when positive, advance `t`. -/
def gamLoop (n : Nat) : List ℚ → Nat → ℤ → (Nat → Nat → Bool) → ℤ × (Nat → Nat → Bool)
  | [], _, t, X => (t, X)
  | q :: rest, col, t, X =>
    let i := truncQ q
    let X1 := if 0 < i then setColSlice X (sliceIdx n t) (sliceIdx n (t + i)) col else X
    gamLoop n rest (col + 1) (t + i) X1

/-- Shallow embedding of `group_assignment_matrix`.  Returns
`(n, p, entries)`; `none` models the raising paths: `torch.zeros(n, p)`
with negative `n`, and `X[t:, -1]` on a matrix with zero columns. -/
def group_assignment_matrix (design : List ℚ) : Option (Nat × Nat × (Nat → Nat → Bool)) :=
  let nZ := truncQ design.sum
  let p := design.length
  if nZ < 0 then none
  else
    let n := nZ.toNat
    let res := gamLoop n design 0 0 (fun _ _ => false)
    if res.1 < (n : ℤ) then
      if p = 0 then none
      else some (n, p, setColSlice res.2 (sliceIdx n res.1) n (p - 1))
    else some (n, p, res.2)

/-- Whether `group_assignment_matrix` completes without raising. -/
def gamOK (design : List ℚ) : Bool := (group_assignment_matrix design).isSome

/-- Row count of the returned matrix (0 when the call raises). -/
def gamRows (design : List ℚ) : Nat :=
  ((group_assignment_matrix design).map (·.1)).getD 0

/-- Column count of the returned matrix (0 when the call raises). -/
def gamCols (design : List ℚ) : Nat :=
  ((group_assignment_matrix design).map (·.2.1)).getD 0

/-- Entry `(r, c)` of the returned matrix (`false` when the call raises). -/
def gamEntry (design : List ℚ) (r c : Nat) : Bool :=
  match group_assignment_matrix design with
  | some (_, _, X) => X r c
  | none => false

/-- Number of ones among the first `m` rows of column `c`. -/
def colCount (design : List ℚ) (m c : Nat) : Nat :=
  (List.range m).countP (fun r => gamEntry design r c)

/-- Sum of the per-entry `int()` truncations, the loop's final `t`. -/
def truncTotal (design : List ℚ) : ℤ := (design.map truncQ).sum

/-- The loop of `group_assignment_matrix` after the entries have been
truncated to integers; used to evaluate concrete calls. -/
def gamLoopZ (n : Nat) : List ℤ → Nat → ℤ → (Nat → Nat → Bool) → ℤ × (Nat → Nat → Bool)
  | [], _, t, X => (t, X)
  | i :: rest, col, t, X =>
    let X1 := if 0 < i then setColSlice X (sliceIdx n t) (sliceIdx n (t + i)) col else X
    gamLoopZ n rest (col + 1) (t + i) X1

/-- `group_assignment_matrix` expressed over the truncated entries
`ints = design.map truncQ` and truncated sum `s = truncQ design.sum`. -/
def gamZ (ints : List ℤ) (s : ℤ) : Option (Nat × Nat × (Nat → Nat → Bool)) :=
  if s < 0 then none
  else if (gamLoopZ s.toNat ints 0 0 (fun _ _ => false)).1 < (s.toNat : ℤ) then
    if ints.length = 0 then none
    else
      some (s.toNat, ints.length,
        setColSlice (gamLoopZ s.toNat ints 0 0 (fun _ _ => false)).2
          (sliceIdx s.toNat (gamLoopZ s.toNat ints 0 0 (fun _ _ => false)).1)
          s.toNat (ints.length - 1))
  else some (s.toNat, ints.length, (gamLoopZ s.toNat ints 0 0 (fun _ _ => false)).2)

theorem gamLoop_eq_gamLoopZ (n : Nat) :
    ∀ (l : List ℚ) (col : Nat) (t : ℤ) (X : Nat → Nat → Bool),
      gamLoop n l col t X = gamLoopZ n (l.map truncQ) col t X := by
  intro l
  induction l with
  | nil => intro col t X; simp [gamLoop, gamLoopZ]
  | cons q rest ih =>
    intro col t X
    simp only [gamLoop, gamLoopZ, List.map_cons]
    rw [ih]

theorem gam_eq_gamZ (design : List ℚ) :
    group_assignment_matrix design = gamZ (design.map truncQ) (truncQ design.sum) := by
  simp only [group_assignment_matrix, gamZ, gamLoop_eq_gamLoopZ, List.length_map]

/-! ### `analytic_posterior_cov` (source lines 269-281) -/

open Matrix

/-- `torch.inverse` over exact rationals: `det⁻¹ • adjugate`, a
computable form of Mathlib's nonsingular inverse. -/
def matInv {p : ℕ} (A : Matrix (Fin p) (Fin p) ℚ) : Matrix (Fin p) (Fin p) ℚ :=
  A.det⁻¹ • A.adjugate

/-- Shallow embedding of `analytic_posterior_cov`:
`prior_cov - inverse(SigmaXX + obs_sd**2 * eye(p)) @ (SigmaXX @ prior_cov)`
where `SigmaXX = prior_cov @ (x.t() @ x)`. -/
def analytic_posterior_cov {nn p : ℕ} (prior_cov : Matrix (Fin p) (Fin p) ℚ)
    (x : Matrix (Fin nn) (Fin p) ℚ) (obs_sd : ℚ) : Matrix (Fin p) (Fin p) ℚ :=
  prior_cov -
    matInv (prior_cov * (xᵀ * x) + obs_sd ^ 2 • (1 : Matrix (Fin p) (Fin p) ℚ)) *
      (prior_cov * (xᵀ * x) * prior_cov)

/-- Symmetric positive semidefiniteness over `ℚ`, stated through the
quadratic form; the matrix order it induces dominates eigenvalues. -/
def PSDQ {p : ℕ} (M : Matrix (Fin p) (Fin p) ℚ) : Prop :=
  Mᵀ = M ∧ ∀ v : Fin p → ℚ, 0 ≤ v ⬝ᵥ M *ᵥ v

/-! ### `bayesian_linear_model` and `normal_inv_gamma_family_guide`
(source lines 92-243), traced at the level of sample sites, shapes and
warnings. -/

/-- A fixed-effect group: entry of `w_means` / `w_sqrtlambdas`. -/
structure FixedGroup where
  name : String
  meanShape : Shape
  sqrtlambdaShape : Shape
deriving DecidableEq

/-- A random-effect group: entry of `re_group_sizes` / `re_alphas` /
`re_betas`. -/
structure ReGroup where
  name : String
  groupSize : Nat
  alphaShape : Shape
  betaShape : Shape
deriving DecidableEq

/-- The `response` argument. -/
inductive Resp where
  | normal
  | bernoulli
  | other
deriving DecidableEq

/-- Arguments of one `bayesian_linear_model` call: the design is
`tauShape ++ [n, p]`; `obsKnown` is `obs_sd is not None`;
`alphaBetaGiven` is `alpha_0 is not None or beta_0 is not None`. -/
structure ModelCfg where
  tauShape : Shape
  n : Nat
  p : Nat
  fixed : List FixedGroup
  re : List ReGroup
  obsKnown : Bool
  obsSdShape : Shape
  alphaBetaGiven : Bool
  alpha0Shape : Shape
  beta0Shape : Shape
  resp : Resp
  responseLabel : String
deriving DecidableEq

/-- Result of a model evaluation: the sample sites in registration
order, the number of warnings emitted, the blocks concatenated into the
regression coefficient (name and shape, in `torch.cat` order), the shape
of `w` and of the response. -/
structure Trace where
  sites : List (String × Shape)
  warnings : Nat
  wBlocks : List (String × Shape)
  wShape : Shape
  respShape : Shape
deriving DecidableEq

/-- Fixed-effects loop (source lines 168-172): each group draws
`name ~ Normal(w_mean, obs_sd / w_sqrtlambda).independent(1)` and
appends the `unsqueeze(-1)`d sample to `w`. -/
def fixedLoop (obsShape : Shape) :
    List FixedGroup → Option (List (String × Shape) × List (String × Shape))
  | [] => some ([], [])
  | g :: rest =>
    match broadcast obsShape g.sqrtlambdaShape with
    | none => none
    | some inner =>
      match broadcast g.meanShape inner with
      | none => none
      | some s =>
        match fixedLoop obsShape rest with
        | none => none
        | some (sites, blocks) =>
          some ((g.name, s) :: sites, (g.name, s ++ [1]) :: blocks)

/-- Random-effects loop (source lines 173-184): each group reads
`group_p = alpha.shape[-1]`, draws
`G_<name> ~ Gamma(alpha.expand(tau+(group_p,)), beta.expand(...))`,
tiles `G = 1/sqrt(draw)` via `G.repeat((1,)*len(tau) + (group_size,))`
(shape `tau ++ [group_p * group_size]`), and draws
`<name> ~ Normal(0., tiled G).independent(1)`. -/
def reLoop (tauShape : Shape) :
    List ReGroup → Option (List (String × Shape) × List (String × Shape))
  | [] => some ([], [])
  | r :: rest =>
    match r.alphaShape.getLast? with
    | none => none
    | some gp =>
      if expandsTo r.alphaShape (tauShape ++ [gp]) &&
          expandsTo r.betaShape (tauShape ++ [gp]) then
        match reLoop tauShape rest with
        | none => none
        | some (sites, blocks) =>
          some ((String.append "G_" r.name, tauShape ++ [gp]) ::
                  (r.name, tauShape ++ [gp * r.groupSize]) :: sites,
                (r.name, tauShape ++ [gp * r.groupSize, 1]) :: blocks)
      else none

/-- Split off the last two dimensions of a shape. -/
def splitLast2 (s : Shape) : Option (Shape × Nat × Nat) :=
  match s.reverse with
  | a :: b :: rest => some (rest.reverse, b, a)
  | _ => none

/-- Auxiliary for `torch.cat(w, dim=-2)`: the remaining blocks must
agree with the first on every dimension but the second-from-last, whose
sizes are summed. -/
def catRest (f : Shape) (l : Nat) : List Shape → Option Nat
  | [] => some 0
  | s :: rest =>
    match splitLast2 s with
    | none => none
    | some (f2, w, l2) =>
      if f2 = f ∧ l2 = l then
        match catRest f l rest with
        | none => none
        | some ws => some (w + ws)
      else none

/-- `torch.cat(w, dim=-2)` on shapes; an empty list raises. -/
def catBlocks : List Shape → Option Shape
  | [] => none
  | s :: rest =>
    match splitLast2 s with
    | none => none
    | some (f, w, l) =>
      match catRest f l rest with
      | none => none
      | some ws => some (f ++ [w + ws, l])

/-- Batched `torch.matmul(design, w)` with `design` of shape
`tauShape ++ [n, p]`: contracted dimensions must agree, batch parts
broadcast. -/
def matmulShape (tauShape : Shape) (n p : Nat) (wShape : Shape) : Option Shape :=
  match splitLast2 wShape with
  | none => none
  | some (f, pp, l) =>
    if pp = p then
      match broadcast tauShape f with
      | none => none
      | some b => some (b ++ [n, l])
    else none

/-- `squeeze(-1)`: drop a trailing dimension equal to 1. -/
def squeezeLast (s : Shape) : Shape :=
  if s.getLast? = some 1 then s.dropLast else s

/-- Shallow embedding of one `bayesian_linear_model` evaluation
(source lines 147-196); `none` models a raised exception. -/
def runModel (c : ModelCfg) : Option Trace :=
  match (if c.obsKnown then
          (if expandsTo c.obsSdShape c.tauShape then some ([] : List (String × Shape)) else none)
        else if c.alphaBetaGiven && expandsTo c.alpha0Shape c.tauShape &&
            expandsTo c.beta0Shape c.tauShape then
          some [("tau", c.tauShape)]
        else none) with
  | none => none
  | some tauSites =>
    match fixedLoop (c.tauShape ++ [1]) c.fixed with
    | none => none
    | some (fs, fblocks) =>
      match reLoop c.tauShape c.re with
      | none => none
      | some (rs, rblocks) =>
        match catBlocks ((fblocks ++ rblocks).map Prod.snd) with
        | none => none
        | some wShape =>
          match matmulShape c.tauShape c.n c.p wShape with
          | none => none
          | some mm =>
            match (match c.resp with
                   | Resp.normal => broadcast (squeezeLast mm) (c.tauShape ++ [1])
                   | Resp.bernoulli => some (squeezeLast mm)
                   | Resp.other => none) with
            | none => none
            | some respShape =>
              some { sites := tauSites ++ fs ++ rs ++ [(c.responseLabel, respShape)],
                     warnings := if c.obsKnown && c.alphaBetaGiven then 1 else 0,
                     wBlocks := fblocks ++ rblocks,
                     wShape := wShape,
                     respShape := respShape }

/-- Per-group loop of the guide (source lines 235-243): learnable mean
of shape `tau ++ size`, learnable positive sqrtlambda of the same shape,
and a draw from `Normal(mean, obs_sd / sqrtlambda).independent(1)`. -/
def guideLoop (tauShape obsShape : Shape) :
    List (String × Shape) → Option (List (String × Shape))
  | [] => some []
  | (nm, size) :: rest =>
    match broadcast obsShape (tauShape ++ size) with
    | none => none
    | some scale =>
      match broadcast (tauShape ++ size) scale with
      | none => none
      | some s =>
        match guideLoop tauShape obsShape rest with
        | none => none
        | some sites => some ((nm, s) :: sites)

/-- Shallow embedding of one `normal_inv_gamma_family_guide` evaluation
(source lines 201-243) at the level of sample sites and shapes. -/
def runGuide (tauShape : Shape) (obsKnown : Bool) (obsSdShape : Shape)
    (wSizes : List (String × Shape)) : Option (List (String × Shape)) :=
  match (if obsKnown then
          (if expandsTo obsSdShape tauShape then some ([] : List (String × Shape)) else none)
        else some [("tau", tauShape)]) with
  | none => none
  | some tauSites =>
    match guideLoop tauShape (tauShape ++ [1]) wSizes with
    | none => none
    | some ws => some (tauSites ++ ws)

/-- Trailing-axis value semantics of
`G.repeat((1,)*len(batch) + (group_size,))` (source line 183): torch's
`repeat` tiles, concatenating `group_size` copies of the whole
trailing vector. -/
def repeatTrailing {α : Type} (G : List α) (k : Nat) : List α :=
  (List.replicate k G).flatten

/-- Shape recorded for sample site `nm` by a model evaluation. -/
def tracedShape (c : ModelCfg) (nm : String) : Option Shape :=
  match runModel c with
  | none => none
  | some tr => tr.sites.lookup nm

theorem gamLoopZ_fst (n : Nat) :
    ∀ (l : List ℤ) (col : Nat) (t : ℤ) (X : Nat → Nat → Bool),
      (gamLoopZ n l col t X).1 = t + l.sum := by
  intro l
  induction l with
  | nil => intro col t X; simp [gamLoopZ]
  | cons i rest ih =>
    intro col t X
    simp only [gamLoopZ, List.sum_cons]
    rw [ih]
    ring

theorem truncQ_nonneg {q : ℚ} (h : 0 ≤ q) : 0 ≤ truncQ q := by
  unfold truncQ
  have hnum : 0 ≤ q.num := Rat.num_nonneg.mpr h
  have hden : (0 : ℤ) ≤ (q.den : ℤ) := Int.ofNat_nonneg q.den
  exact Int.div_nonneg hnum hden

theorem truncTotal_nonneg {design : List ℚ} (h : ∀ q ∈ design, 0 ≤ q) :
    0 ≤ truncTotal design := by
  unfold truncTotal
  induction design with
  | nil => simp
  | cons q rest ih =>
    simp only [List.map_cons, List.sum_cons]
    have h1 : 0 ≤ truncQ q := truncQ_nonneg (h q (by simp))
    have h2 : 0 ≤ (rest.map truncQ).sum := ih (fun x hx => h x (by simp [hx]))
    omega

/-! ### Claim theorems for the design-matrix utility -/

theorem gam_2301_eval : group_assignment_matrix [2, 3, 0, 1] = gamZ [2, 3, 0, 1] 6 := by
  rw [gam_eq_gamZ]
  norm_num [truncQ]

/-- C8: `group_assignment_matrix` applied to the group-size vector
`[2,3,0,1]` returns a 6×4 binary matrix whose column `i` contains exactly
`[2,3,0,1][i]` ones, the ones in each column occupying contiguous rows
starting immediately after the previous group's run, with 6 ones in
total (one per row). -/
theorem gam_group_size_conservation :
    gamOK [2, 3, 0, 1] = true ∧
    gamRows [2, 3, 0, 1] = 6 ∧ gamCols [2, 3, 0, 1] = 4 ∧
    colCount [2, 3, 0, 1] 6 0 = 2 ∧ colCount [2, 3, 0, 1] 6 1 = 3 ∧
    colCount [2, 3, 0, 1] 6 2 = 0 ∧ colCount [2, 3, 0, 1] 6 3 = 1 ∧
    ((List.range 6).map (fun r => (List.range 4).map (fun c => gamEntry [2, 3, 0, 1] r c)) =
      [[true, false, false, false], [true, false, false, false],
       [false, true, false, false], [false, true, false, false],
       [false, true, false, false], [false, false, false, true]]) ∧
    ((List.range 6).map (fun r => (List.range 4).countP (fun c => gamEntry [2, 3, 0, 1] r c))).sum = 6 := by
  simp only [gamOK, gamRows, gamCols, gamEntry, colCount, gam_2301_eval]
  decide

theorem gam_2m11_eval : group_assignment_matrix [2, -1, 1] = gamZ [2, -1, 1] 2 := by
  rw [gam_eq_gamZ]
  norm_num [truncQ]

/-- C6 counterexample: the input `[2, -1, 1]` contains a negative entry,
yet `group_assignment_matrix` completes without raising, refuting the
claim that every input with a negative entry fails. -/
theorem gam_negative_entry_succeeds :
    gamOK [2, -1, 1] = true ∧ (-1 : ℚ) ∈ ([2, -1, 1] : List ℚ) ∧ (-1 : ℚ) < 0 := by
  refine ⟨?_, by norm_num, by norm_num⟩
  simp only [gamOK, gam_2m11_eval]
  decide

/-- C6 amended: `group_assignment_matrix` fails exactly when the
integer truncation of the sum of the entries is negative, and a negative
truncated sum requires a negative entry; so negative sizes remain the
only source of failure, but a negative entry whose sum stays
non-negative does not fail. -/
theorem gam_failure_iff_truncated_sum_negative (design : List ℚ) :
    (gamOK design = false ↔ truncQ design.sum < 0) ∧
    (truncQ design.sum < 0 → ∃ q ∈ design, q < 0) := by
  constructor
  · unfold gamOK
    rw [gam_eq_gamZ]
    by_cases hs : truncQ design.sum < 0
    · simp [gamZ, hs]
    · simp only [hs, iff_false, Bool.not_eq_false]
      unfold gamZ
      rw [if_neg hs]
      by_cases hp : design = []
      · subst hp
        have h0 : truncQ ([] : List ℚ).sum = 0 := by norm_num [truncQ]
        rw [h0]
        simp [gamLoopZ]
      · have hp' : ¬ (design.map truncQ).length = 0 := by
          simp only [List.length_map]
          exact fun h => hp (List.length_eq_zero.mp h)
        by_cases hlt :
            (gamLoopZ (truncQ design.sum).toNat (design.map truncQ) 0 0 (fun _ _ => false)).1 <
              ((truncQ design.sum).toNat : ℤ)
        · rw [if_pos hlt, if_neg hp']
          rfl
        · rw [if_neg hlt]
          rfl
  · intro hneg
    by_contra hall
    push_neg at hall
    have hsum : 0 ≤ design.sum := List.sum_nonneg hall
    exact absurd (truncQ_nonneg hsum) (not_le.mpr hneg)

/-- C9: on a non-negative input whose per-entry truncations assign fewer
rows than `n = int(sum)`, every residual row (index at least the total
of the truncated sizes) is set to 1 in the last column. -/
theorem gam_residual_rows_to_last_column (design : List ℚ)
    (hpos : ∀ q ∈ design, 0 ≤ q)
    (hres : truncTotal design < truncQ design.sum) (r : Nat)
    (hr1 : truncTotal design ≤ (r : ℤ)) (hr2 : (r : ℤ) < truncQ design.sum) :
    gamEntry design r (design.length - 1) = true := by
  have h0 : 0 ≤ truncTotal design := truncTotal_nonneg hpos
  have hs : 0 ≤ truncQ design.sum := le_trans h0 hres.le
  have hlen : design ≠ [] := by
    intro h
    subst h
    have h1 : truncQ ([] : List ℚ).sum = 0 := by norm_num [truncQ]
    rw [h1] at hres
    simp [truncTotal] at hres
  have hloop :
      (gamLoopZ (truncQ design.sum).toNat (design.map truncQ) 0 0 (fun _ _ => false)).1 =
        truncTotal design := by
    rw [gamLoopZ_fst]
    simp [truncTotal]
  have htoNat : ((truncQ design.sum).toNat : ℤ) = truncQ design.sum := Int.toNat_of_nonneg hs
  unfold gamEntry
  rw [gam_eq_gamZ]
  unfold gamZ
  rw [if_neg (not_lt.mpr hs), hloop,
    if_pos (show truncTotal design < ((truncQ design.sum).toNat : ℤ) by rw [htoNat]; exact hres),
    if_neg (show ¬ (design.map truncQ).length = 0 by
      simp only [List.length_map]
      exact fun h => hlen (List.length_eq_zero.mp h))]
  show setColSlice _ (sliceIdx (truncQ design.sum).toNat (truncTotal design))
      (truncQ design.sum).toNat ((design.map truncQ).length - 1) r (design.length - 1) = true
  unfold setColSlice
  rw [if_pos]
  refine ⟨by rw [List.length_map], ?_, ?_⟩
  · unfold sliceIdx
    rw [if_neg (not_lt.mpr h0)]
    have h1 : (truncTotal design).toNat ≤ r := by omega
    exact le_trans (min_le_left _ _) h1
  · omega

/-- Witness for C9 at the concrete input `[1/2, 1/2]`: the truncations
assign 0 rows while `n = 1`, and the single residual row 0 lands in the
last column. -/
theorem gam_residual_rows_witness :
    gamEntry [(1 : ℚ)/2, 1/2] 0 ([(1 : ℚ)/2, 1/2].length - 1) = true := by
  have h1 : ∀ q ∈ [(1 : ℚ)/2, 1/2], 0 ≤ q := by norm_num
  have h2 : truncTotal [(1 : ℚ)/2, 1/2] = 0 := by
    norm_num [truncTotal, truncQ]
    decide
  have h3 : truncQ ([(1 : ℚ)/2, 1/2].sum) = 1 := by
    norm_num [truncQ]
  exact gam_residual_rows_to_last_column [(1 : ℚ)/2, 1/2] h1 (by rw [h2, h3]; norm_num) 0
    (by rw [h2]; norm_num) (by rw [h3]; norm_num)

/-! ### Claim theorems for the conjugate posterior calculator -/

theorem dot_self_nonneg {m : ℕ} (v : Fin m → ℚ) : 0 ≤ v ⬝ᵥ v :=
  Finset.sum_nonneg fun i _ => mul_self_nonneg (v i)

theorem matInv_eq_inv {p : ℕ} (A : Matrix (Fin p) (Fin p) ℚ) : matInv A = A⁻¹ := by
  rw [Matrix.inv_def, Ring.inverse_eq_inv]
  rfl

theorem inv_mul_shift_comm {p : ℕ} (A : Matrix (Fin p) (Fin p) ℚ) (c : ℚ)
    (h : A.det ≠ 0) : A⁻¹ * (A - c • 1) = (A - c • 1) * A⁻¹ := by
  have hU : IsUnit A.det := isUnit_iff_ne_zero.mpr h
  rw [mul_sub, sub_mul, Matrix.nonsing_inv_mul A hU, Matrix.mul_nonsing_inv A hU,
    Matrix.mul_smul, Matrix.smul_mul, mul_one, one_mul]

/-- C3: whenever `Σ₀xᵀx + σ²I` is invertible, `analytic_posterior_cov`
returns exactly `Σ₀ − Σ₀xᵀx (Σ₀xᵀx + σ²I)⁻¹ Σ₀`; the code computes the
inverse on the left of the product, which agrees because
`Σ₀xᵀx = (Σ₀xᵀx + σ²I) − σ²I` commutes with the inverse. -/
theorem apc_matches_spec_formula {nn p : ℕ} (S0 : Matrix (Fin p) (Fin p) ℚ)
    (x : Matrix (Fin nn) (Fin p) ℚ) (sd : ℚ)
    (h : (S0 * (xᵀ * x) + sd ^ 2 • (1 : Matrix (Fin p) (Fin p) ℚ)).det ≠ 0) :
    analytic_posterior_cov S0 x sd =
      S0 - S0 * (xᵀ * x) *
        (S0 * (xᵀ * x) + sd ^ 2 • (1 : Matrix (Fin p) (Fin p) ℚ))⁻¹ * S0 := by
  unfold analytic_posterior_cov
  rw [matInv_eq_inv]
  congr 1
  set A := S0 * (xᵀ * x) + sd ^ 2 • (1 : Matrix (Fin p) (Fin p) ℚ) with hA
  have hS : S0 * (xᵀ * x) = A - sd ^ 2 • 1 := by rw [hA, add_sub_cancel_right]
  rw [hS, ← mul_assoc, inv_mul_shift_comm A _ h]

/-- Witness for C3 at `Σ₀ = [[1]]`, `x = [[1]]`, `σ = 1`. -/
theorem apc_matches_spec_formula_witness :
    ((!![(1 : ℚ)]) * ((!![(1 : ℚ)])ᵀ * !![(1 : ℚ)]) +
        (1 : ℚ) ^ 2 • (1 : Matrix (Fin 1) (Fin 1) ℚ)).det ≠ 0 ∧
    analytic_posterior_cov !![(1 : ℚ)] !![(1 : ℚ)] 1 =
      !![(1 : ℚ)] - !![(1 : ℚ)] * ((!![(1 : ℚ)])ᵀ * !![(1 : ℚ)]) *
        ((!![(1 : ℚ)]) * ((!![(1 : ℚ)])ᵀ * !![(1 : ℚ)]) +
          (1 : ℚ) ^ 2 • (1 : Matrix (Fin 1) (Fin 1) ℚ))⁻¹ * !![(1 : ℚ)] := by
  have hdet : ((!![(1 : ℚ)]) * ((!![(1 : ℚ)])ᵀ * !![(1 : ℚ)]) +
      (1 : ℚ) ^ 2 • (1 : Matrix (Fin 1) (Fin 1) ℚ)).det ≠ 0 := by
    rw [Matrix.det_fin_one]
    simp [Matrix.mul_apply, Fin.sum_univ_one, Matrix.one_apply, Matrix.vecMul,
      Matrix.dotProduct]
  exact ⟨hdet, apc_matches_spec_formula !![(1 : ℚ)] !![(1 : ℚ)] 1 hdet⟩

/-- C7: for every symmetric positive-semidefinite prior covariance and
nonzero noise sd, the posterior covariance never exceeds the prior in
the Loewner order (`Σ₀ − Σ₁` is symmetric positive semidefinite, which
forces every sorted eigenvalue of `Σ₁` below the corresponding one of
`Σ₀`), and an all-zero design returns `Σ₀` unchanged. -/
theorem apc_loewner_and_zero_design {nn p : ℕ} (S0 : Matrix (Fin p) (Fin p) ℚ)
    (x : Matrix (Fin nn) (Fin p) ℚ) (sd : ℚ)
    (hpsd : PSDQ S0) (hsd : sd ≠ 0) :
    PSDQ (S0 - analytic_posterior_cov S0 x sd) ∧
      (x = 0 → analytic_posterior_cov S0 x sd = S0) := by
  obtain ⟨hsym, hquad⟩ := hpsd
  constructor
  · set B := xᵀ * x with hB
    set A := S0 * B + sd ^ 2 • (1 : Matrix (Fin p) (Fin p) ℚ) with hA
    set C := x * S0 * xᵀ + sd ^ 2 • (1 : Matrix (Fin nn) (Fin nn) ℚ) with hC
    have hsd2 : 0 < sd ^ 2 := by positivity
    have hCsym : Cᵀ = C := by
      rw [hC]
      simp only [Matrix.transpose_add, Matrix.transpose_smul, Matrix.transpose_one,
        Matrix.transpose_mul, Matrix.transpose_transpose, hsym, Matrix.mul_assoc]
    have hCquad : ∀ v : Fin nn → ℚ,
        v ⬝ᵥ C *ᵥ v = (xᵀ *ᵥ v) ⬝ᵥ S0 *ᵥ (xᵀ *ᵥ v) + sd ^ 2 * (v ⬝ᵥ v) := by
      intro v
      rw [hC, Matrix.add_mulVec, Matrix.dotProduct_add, Matrix.smul_mulVec_assoc,
        Matrix.one_mulVec, Matrix.dotProduct_smul, smul_eq_mul]
      congr 1
      rw [← Matrix.mulVec_mulVec, ← Matrix.mulVec_mulVec, Matrix.dotProduct_mulVec,
        ← Matrix.mulVec_transpose]
    have hCpsd : ∀ v : Fin nn → ℚ, 0 ≤ v ⬝ᵥ C *ᵥ v := by
      intro v
      rw [hCquad v]
      have h1 := hquad (xᵀ *ᵥ v)
      have h2 : 0 ≤ sd ^ 2 * (v ⬝ᵥ v) := mul_nonneg hsd2.le (dot_self_nonneg v)
      linarith
    have hCpd : ∀ v : Fin nn → ℚ, v ≠ 0 → 0 < v ⬝ᵥ C *ᵥ v := by
      intro v hv
      rw [hCquad v]
      have h1 := hquad (xᵀ *ᵥ v)
      have hvv : 0 < v ⬝ᵥ v := by
        rcases lt_or_eq_of_le (dot_self_nonneg v) with h | h
        · exact h
        · exact absurd (Matrix.dotProduct_self_eq_zero.mp h.symm) hv
      nlinarith
    have hCdet : C.det ≠ 0 := by
      intro hdet
      obtain ⟨v, hv, hCv⟩ := Matrix.exists_mulVec_eq_zero_iff.mpr hdet
      have hlt := hCpd v hv
      rw [hCv, Matrix.dotProduct_zero] at hlt
      exact lt_irrefl 0 hlt
    have hAdet : A.det ≠ 0 := by
      intro hdet
      obtain ⟨v, hv, hAv⟩ := Matrix.exists_mulVec_eq_zero_iff.mpr hdet
      rw [hA, Matrix.add_mulVec, Matrix.smul_mulVec_assoc, Matrix.one_mulVec,
        ← Matrix.mulVec_mulVec] at hAv
      have h2 : (B *ᵥ v) ⬝ᵥ v = (x *ᵥ v) ⬝ᵥ (x *ᵥ v) := by
        rw [hB, ← Matrix.mulVec_mulVec, Matrix.dotProduct_comm, Matrix.dotProduct_mulVec,
          Matrix.vecMul_transpose]
      have h1 : (B *ᵥ v) ⬝ᵥ (S0 *ᵥ (B *ᵥ v) + sd ^ 2 • v) = 0 := by
        rw [hAv, Matrix.dotProduct_zero]
      rw [Matrix.dotProduct_add, Matrix.dotProduct_smul, smul_eq_mul, h2] at h1
      have h3 := hquad (B *ᵥ v)
      have h4 : 0 ≤ (x *ᵥ v) ⬝ᵥ (x *ᵥ v) := dot_self_nonneg _
      have hw : (x *ᵥ v) ⬝ᵥ (x *ᵥ v) = 0 := by nlinarith
      have hxv : x *ᵥ v = 0 := Matrix.dotProduct_self_eq_zero.mp hw
      have hBv : B *ᵥ v = 0 := by
        rw [hB, ← Matrix.mulVec_mulVec, hxv, Matrix.mulVec_zero]
      rw [hBv, Matrix.mulVec_zero, zero_add] at hAv
      rcases smul_eq_zero.mp hAv with h | h
      · exact absurd h (by positivity)
      · exact hv h
    have hU_A : IsUnit A.det := isUnit_iff_ne_zero.mpr hAdet
    have hU_C : IsUnit C.det := isUnit_iff_ne_zero.mpr hCdet
    have hCA : C * x = x * A := by
      rw [hC, hA, Matrix.add_mul, Matrix.mul_add]
      congr 1
      · rw [hB]
        simp only [Matrix.mul_assoc]
      · rw [Matrix.smul_mul, Matrix.mul_smul, Matrix.one_mul, Matrix.mul_one]
    have hxA : x * A⁻¹ = C⁻¹ * x := by
      calc x * A⁻¹ = (C⁻¹ * C) * (x * A⁻¹) := by
            rw [Matrix.nonsing_inv_mul C hU_C, Matrix.one_mul]
        _ = C⁻¹ * ((C * x) * A⁻¹) := by rw [Matrix.mul_assoc, Matrix.mul_assoc]
        _ = C⁻¹ * ((x * A) * A⁻¹) := by rw [hCA]
        _ = C⁻¹ * (x * (A * A⁻¹)) := by rw [Matrix.mul_assoc]
        _ = C⁻¹ * x := by rw [Matrix.mul_nonsing_inv A hU_A, Matrix.mul_one]
    have hsub : S0 - analytic_posterior_cov S0 x sd = A⁻¹ * (S0 * B * S0) := by
      unfold analytic_posterior_cov
      rw [sub_sub_cancel, matInv_eq_inv, ← hB, ← hA]
    have hSdecomp : S0 * B = A - sd ^ 2 • 1 := by rw [hA, add_sub_cancel_right]
    have hkey : A⁻¹ * (S0 * B * S0) = S0 * (xᵀ * (C⁻¹ * x)) * S0 := by
      calc A⁻¹ * (S0 * B * S0) = (A⁻¹ * (S0 * B)) * S0 := by rw [← mul_assoc]
        _ = ((S0 * B) * A⁻¹) * S0 := by
            rw [hSdecomp, inv_mul_shift_comm A _ hAdet]
        _ = (S0 * (xᵀ * (x * A⁻¹))) * S0 := by
            rw [hB]
            simp only [Matrix.mul_assoc]
        _ = S0 * (xᵀ * (C⁻¹ * x)) * S0 := by rw [hxA]
    rw [hsub, hkey]
    have hCinv : (C⁻¹)ᵀ = C⁻¹ := by rw [Matrix.transpose_nonsing_inv, hCsym]
    constructor
    · simp only [Matrix.transpose_mul, Matrix.transpose_transpose, hsym, hCinv,
        Matrix.mul_assoc]
    · intro v
      have hform : v ⬝ᵥ (S0 * (xᵀ * (C⁻¹ * x)) * S0) *ᵥ v =
          (x *ᵥ (S0 *ᵥ v)) ⬝ᵥ C⁻¹ *ᵥ (x *ᵥ (S0 *ᵥ v)) := by
        rw [← Matrix.mulVec_mulVec, ← Matrix.mulVec_mulVec, ← Matrix.mulVec_mulVec,
          ← Matrix.mulVec_mulVec, Matrix.dotProduct_mulVec v S0, ← Matrix.mulVec_transpose,
          hsym, Matrix.dotProduct_mulVec _ xᵀ, Matrix.vecMul_transpose]
      rw [hform]
      have hw : x *ᵥ (S0 *ᵥ v) = C *ᵥ (C⁻¹ *ᵥ (x *ᵥ (S0 *ᵥ v))) := by
        conv_rhs => rw [Matrix.mulVec_mulVec, Matrix.mul_nonsing_inv C hU_C,
          Matrix.one_mulVec]
      calc (0 : ℚ) ≤ (C⁻¹ *ᵥ (x *ᵥ (S0 *ᵥ v))) ⬝ᵥ C *ᵥ (C⁻¹ *ᵥ (x *ᵥ (S0 *ᵥ v))) :=
            hCpsd _
        _ = (C *ᵥ (C⁻¹ *ᵥ (x *ᵥ (S0 *ᵥ v)))) ⬝ᵥ (C⁻¹ *ᵥ (x *ᵥ (S0 *ᵥ v))) :=
            Matrix.dotProduct_comm _ _
        _ = (x *ᵥ (S0 *ᵥ v)) ⬝ᵥ C⁻¹ *ᵥ (x *ᵥ (S0 *ᵥ v)) := by rw [← hw]
  · intro hx
    subst hx
    simp [analytic_posterior_cov]

/-- Witness for C7 at `Σ₀ = I₁`, `x = [[2]]`, `σ = 1`. -/
theorem apc_loewner_and_zero_design_witness :
    PSDQ (1 : Matrix (Fin 1) (Fin 1) ℚ) ∧ (1 : ℚ) ≠ 0 ∧
    (PSDQ ((1 : Matrix (Fin 1) (Fin 1) ℚ) - analytic_posterior_cov 1 !![(2 : ℚ)] 1) ∧
      (!![(2 : ℚ)] = 0 → analytic_posterior_cov (1 : Matrix (Fin 1) (Fin 1) ℚ) !![(2 : ℚ)] 1 = 1)) := by
  have h1 : PSDQ (1 : Matrix (Fin 1) (Fin 1) ℚ) := by
    refine ⟨Matrix.transpose_one, fun v => ?_⟩
    rw [Matrix.one_mulVec]
    exact dot_self_nonneg v
  exact ⟨h1, one_ne_zero, apc_loewner_and_zero_design 1 !![(2 : ℚ)] 1 h1 one_ne_zero⟩

/-! ### Shape-calculus lemmas for the model and guide -/

theorem bdim_self (a : Nat) : bdim a a = some a := by simp [bdim]

theorem bdim_one_left (k : Nat) : bdim 1 k = some k := by
  unfold bdim
  by_cases h : 1 = k
  · subst h; rfl
  · simp [h]

theorem bdim_one_right (k : Nat) : bdim k 1 = some k := by
  unfold bdim
  by_cases h : k = 1
  · subst h; rfl
  · simp [h]

theorem broadcastRev_self (l : List Nat) : broadcastRev l l = some l := by
  induction l with
  | nil => rfl
  | cons a t ih => simp [broadcastRev, bdim_self, ih]

theorem broadcast_self (s : Shape) : broadcast s s = some s := by
  simp [broadcast, broadcastRev_self]

theorem broadcast_nil_left (s : Shape) : broadcast [] s = some s := by
  simp [broadcast, broadcastRev]

theorem broadcast_append_last (t : Shape) (a b d : Nat) (h : bdim a b = some d) :
    broadcast (t ++ [a]) (t ++ [b]) = some (t ++ [d]) := by
  simp [broadcast, List.reverse_append, broadcastRev, h, broadcastRev_self]

theorem expandRevOK_refl (l : List Nat) : expandRevOK l l = true := by
  induction l with
  | nil => rfl
  | cons a tl ih => simp [expandRevOK, ih]

theorem expandsTo_refl (s : Shape) : expandsTo s s = true := by
  unfold expandsTo
  exact expandRevOK_refl _

theorem expandsTo_nil_left (s : Shape) : expandsTo [] s = true := by
  unfold expandsTo
  cases hs : s.reverse <;> rfl

theorem splitLast2_append (t : Shape) (a b : Nat) :
    splitLast2 (t ++ [a, b]) = some (t, a, b) := by
  simp [splitLast2, List.reverse_append]

theorem catRest_uniform (t : Shape) (ws : List Nat) :
    catRest t 1 (ws.map (fun w => t ++ [w, 1])) = some ws.sum := by
  induction ws with
  | nil => rfl
  | cons w rest ih => simp [catRest, splitLast2_append, ih]

theorem catBlocks_uniform (t : Shape) (w : Nat) (ws : List Nat) :
    catBlocks ((w :: ws).map (fun w => t ++ [w, 1])) =
      some (t ++ [(w :: ws).sum, 1]) := by
  simp [catBlocks, splitLast2_append, catRest_uniform]

theorem matmulShape_std (t : Shape) (n p : Nat) :
    matmulShape t n p (t ++ [p, 1]) = some (t ++ [n, 1]) := by
  simp [matmulShape, splitLast2_append, broadcast_self]

theorem squeezeLast_append (t : Shape) (n : Nat) :
    squeezeLast (t ++ [n, 1]) = t ++ [n] := by
  unfold squeezeLast
  rw [show t ++ [n, 1] = (t ++ [n]) ++ [1] by simp]
  rw [List.getLast?_concat, List.dropLast_concat]
  simp

theorem fixedLoop_spec (t : Shape) (gs : List (FixedGroup × Nat))
    (h : ∀ g ∈ gs, (broadcast (t ++ [1]) g.1.sqrtlambdaShape).bind
        (fun inner => broadcast g.1.meanShape inner) = some (t ++ [g.2])) :
    fixedLoop (t ++ [1]) (gs.map Prod.fst) =
      some (gs.map (fun g => (g.1.name, t ++ [g.2])),
            gs.map (fun g => (g.1.name, t ++ [g.2, 1]))) := by
  induction gs with
  | nil => rfl
  | cons g rest ih =>
    have hg := h g (List.mem_cons_self g rest)
    obtain ⟨inner, hinner, houter⟩ := Option.bind_eq_some.mp hg
    have ihh := ih (fun x hx => h x (List.mem_cons_of_mem g hx))
    simp only [List.map_cons, fixedLoop, hinner, houter, ihh]
    simp [List.append_assoc]

theorem reLoop_spec (t : Shape) (rs : List (ReGroup × Nat))
    (h : ∀ x ∈ rs, x.1.alphaShape.getLast? = some x.2 ∧
        expandsTo x.1.alphaShape (t ++ [x.2]) = true ∧
        expandsTo x.1.betaShape (t ++ [x.2]) = true) :
    reLoop t (rs.map Prod.fst) =
      some ((rs.map (fun x => [(String.append "G_" x.1.name, t ++ [x.2]),
                               (x.1.name, t ++ [x.2 * x.1.groupSize])])).join,
            rs.map (fun x => (x.1.name, t ++ [x.2 * x.1.groupSize, 1]))) := by
  induction rs with
  | nil => rfl
  | cons x rest ih =>
    obtain ⟨hgp, ha, hb⟩ := h x (List.mem_cons_self x rest)
    have ihh := ih (fun y hy => h y (List.mem_cons_of_mem x hy))
    simp only [List.map_cons, reLoop, hgp, ha, hb, ihh, List.join_cons]
    simp

theorem runModel_spec (t : Shape) (n p : Nat) (gs : List (FixedGroup × Nat))
    (rs : List (ReGroup × Nat)) (obsKnown alphaBetaGiven : Bool)
    (obsSd a0 b0 : Shape) (resp : Resp) (lbl : String)
    (hfix : ∀ g ∈ gs, (broadcast (t ++ [1]) g.1.sqrtlambdaShape).bind
        (fun inner => broadcast g.1.meanShape inner) = some (t ++ [g.2]))
    (hre : ∀ x ∈ rs, x.1.alphaShape.getLast? = some x.2 ∧
        expandsTo x.1.alphaShape (t ++ [x.2]) = true ∧
        expandsTo x.1.betaShape (t ++ [x.2]) = true)
    (htau : (if obsKnown then expandsTo obsSd t
             else alphaBetaGiven && expandsTo a0 t && expandsTo b0 t) = true)
    (hne : (gs.map Prod.snd ++ rs.map (fun x => x.2 * x.1.groupSize)) ≠ [])
    (hp : p = (gs.map Prod.snd ++ rs.map (fun x => x.2 * x.1.groupSize)).sum)
    (hresp : resp ≠ Resp.other) :
    runModel ⟨t, n, p, gs.map Prod.fst, rs.map Prod.fst, obsKnown, obsSd,
        alphaBetaGiven, a0, b0, resp, lbl⟩ =
      some ⟨(if obsKnown then [] else [("tau", t)]) ++
              gs.map (fun g => (g.1.name, t ++ [g.2])) ++
              (rs.map (fun x => [(String.append "G_" x.1.name, t ++ [x.2]),
                                 (x.1.name, t ++ [x.2 * x.1.groupSize])])).join ++
              [(lbl, t ++ [n])],
            (if obsKnown && alphaBetaGiven then 1 else 0),
            gs.map (fun g => (g.1.name, t ++ [g.2, 1])) ++
              rs.map (fun x => (x.1.name, t ++ [x.2 * x.1.groupSize, 1])),
            t ++ [p, 1], t ++ [n]⟩ := by
  have hfl := fixedLoop_spec t gs hfix
  have hrl := reLoop_spec t rs hre
  obtain ⟨w0, ws2, hws2⟩ :=
    List.exists_cons_of_ne_nil (l := gs.map Prod.snd ++ rs.map (fun x => x.2 * x.1.groupSize)) hne
  have hblocks :
      ((gs.map (fun g => (g.1.name, t ++ [g.2, 1])) ++
        rs.map (fun x => (x.1.name, t ++ [x.2 * x.1.groupSize, 1]))).map Prod.snd) =
        (gs.map Prod.snd ++ rs.map (fun x => x.2 * x.1.groupSize)).map
          (fun w => t ++ [w, 1]) := by
    simp only [List.map_append, List.map_map]
    rfl
  have hcat : catBlocks ((gs.map Prod.snd ++
        rs.map (fun x => x.2 * x.1.groupSize)).map (fun w => t ++ [w, 1])) =
      some (t ++ [p, 1]) := by
    rw [hws2, catBlocks_uniform, ← hws2, ← hp]
  cases obsKnown with
  | true =>
    simp only [if_true] at htau ⊢
    unfold runModel
    simp only [htau, if_true, hfl, hrl, hblocks, hcat, matmulShape_std,
      squeezeLast_append]
    simp only [List.append_assoc, List.nil_append, List.singleton_append]
    cases resp with
    | normal =>
      simp [broadcast_append_last t n 1 n (bdim_one_right n), List.append_assoc]
    | bernoulli => simp [List.append_assoc]
    | other => exact absurd rfl hresp
  | false =>
    simp only [Bool.false_eq_true, if_false] at htau ⊢
    unfold runModel
    simp only [htau, hfl, hrl, hblocks, hcat, matmulShape_std,
      squeezeLast_append]
    simp only [List.append_assoc, List.nil_append, List.singleton_append]
    cases resp with
    | normal =>
      simp [broadcast_append_last t n 1 n (bdim_one_right n), List.append_assoc]
    | bernoulli => simp [List.append_assoc]
    | other => exact absurd rfl hresp

theorem guideLoop_spec (t : Shape) (ws : List (String × Nat)) :
    guideLoop t (t ++ [1]) (ws.map (fun g => (g.1, ([g.2] : Shape)))) =
      some (ws.map (fun g => (g.1, t ++ [g.2]))) := by
  induction ws with
  | nil => rfl
  | cons g rest ih =>
    simp only [List.map_cons, guideLoop,
      broadcast_append_last t 1 g.2 g.2 (bdim_one_left g.2), broadcast_self, ih]

theorem runGuide_spec (t : Shape) (obsKnown : Bool) (obsSd : Shape)
    (ws : List (String × Nat))
    (h : obsKnown = true → expandsTo obsSd t = true) :
    runGuide t obsKnown obsSd (ws.map (fun g => (g.1, ([g.2] : Shape)))) =
      some ((if obsKnown then [] else [("tau", t)]) ++
        ws.map (fun g => (g.1, t ++ [g.2]))) := by
  cases obsKnown with
  | true =>
    unfold runGuide
    simp only [h rfl, if_true, guideLoop_spec]
  | false =>
    unfold runGuide
    simp only [Bool.false_eq_true, if_false, guideLoop_spec]

theorem fixedLoop_block_names (o : Shape) :
    ∀ (l : List FixedGroup) (sites blocks : List (String × Shape)),
      fixedLoop o l = some (sites, blocks) →
      blocks.map Prod.fst = l.map FixedGroup.name := by
  intro l
  induction l with
  | nil =>
    intro sites blocks h
    simp only [fixedLoop, Option.some.injEq, Prod.mk.injEq] at h
    rw [← h.2]
    rfl
  | cons g rest ih =>
    intro sites blocks h
    simp only [fixedLoop] at h
    split at h
    · exact absurd h (by simp)
    · split at h
      · exact absurd h (by simp)
      · split at h
        · exact absurd h (by simp)
        · rename_i inner hinner s houter sites0 blocks0 hrest
          simp only [Option.some.injEq, Prod.mk.injEq] at h
          rw [← h.2]
          simp only [List.map_cons]
          rw [ih sites0 blocks0 hrest]

theorem reLoop_block_names (t : Shape) :
    ∀ (l : List ReGroup) (sites blocks : List (String × Shape)),
      reLoop t l = some (sites, blocks) →
      blocks.map Prod.fst = l.map ReGroup.name := by
  intro l
  induction l with
  | nil =>
    intro sites blocks h
    simp only [reLoop, Option.some.injEq, Prod.mk.injEq] at h
    rw [← h.2]
    rfl
  | cons r rest ih =>
    intro sites blocks h
    simp only [reLoop] at h
    split at h
    · exact absurd h (by simp)
    · split at h
      · split at h
        · exact absurd h (by simp)
        · rename_i gp h1 h2 sites0 blocks0 hrest
          simp only [Option.some.injEq, Prod.mk.injEq] at h
          rw [← h.2]
          simp only [List.map_cons]
          rw [ih sites0 blocks0 hrest]
      · exact absurd h (by simp)

theorem reLoop_mem (t : Shape) :
    ∀ (l : List ReGroup) (pr : List (String × Shape) × List (String × Shape)),
      reLoop t l = some pr → ∀ r ∈ l, ∀ gp, r.alphaShape.getLast? = some gp →
      (String.append "G_" r.name, t ++ [gp]) ∈ pr.1 ∧
      (r.name, t ++ [gp * r.groupSize]) ∈ pr.1 := by
  intro l
  induction l with
  | nil =>
    intro pr h r hr
    exact absurd hr (List.not_mem_nil r)
  | cons r0 rest ih =>
    intro pr h r hr gp hgp
    simp only [reLoop] at h
    split at h
    next => exact absurd h (by simp)
    next xx gpv hgpv =>
      split at h
      next hcond =>
        split at h
        next => exact absurd h (by simp)
        next yy sites0 blocks0 hrest =>
          simp only [Option.some.injEq] at h
          rcases List.mem_cons.mp hr with hEq | hmem
          · subst hEq
            rw [hgp] at hgpv
            injection hgpv with hgpv
            subst hgpv
            rw [← h]
            exact ⟨by simp, by simp⟩
          · have hm := ih (sites0, blocks0) hrest r hmem gp hgp
            rw [← h]
            exact ⟨List.mem_cons_of_mem _ (List.mem_cons_of_mem _ hm.1),
              List.mem_cons_of_mem _ (List.mem_cons_of_mem _ hm.2)⟩
      next hcond => exact absurd h (by simp)

theorem runModel_inv (c : ModelCfg) (tr : Trace) (h : runModel c = some tr) :
    ∃ tauSites fs fblocks rsites rblocks,
      fixedLoop (c.tauShape ++ [1]) c.fixed = some (fs, fblocks) ∧
      reLoop c.tauShape c.re = some (rsites, rblocks) ∧
      tr.wBlocks = fblocks ++ rblocks ∧
      tr.sites = tauSites ++ fs ++ rsites ++ [(c.responseLabel, tr.respShape)] := by
  unfold runModel at h
  repeat' split at h
  all_goals try (exact Option.noConfusion h)
  all_goals
    simp only [Option.some.injEq] at h
  all_goals
    subst h
  all_goals
    refine ⟨_, _, _, _, _, ?_, ?_, rfl, rfl⟩ <;> assumption

theorem repeatTrailing_length {α : Type} (G : List α) :
    ∀ k, (repeatTrailing G k).length = k * G.length := by
  intro k
  induction k with
  | zero => simp [repeatTrailing]
  | succ k ih =>
    rw [repeatTrailing, List.replicate_succ, List.flatten_cons, List.length_append]
    rw [repeatTrailing] at ih
    rw [ih]
    ring

theorem repeatTrailing_getQ {α : Type} (G : List α) :
    ∀ k j, j < k * G.length →
      (repeatTrailing G k)[j]? = G[j % G.length]? := by
  intro k
  induction k with
  | zero =>
    intro j hj
    exact absurd hj (by simp)
  | succ k ih =>
    intro j hj
    rw [repeatTrailing, List.replicate_succ, List.flatten_cons]
    by_cases hj2 : j < G.length
    · rw [List.getElem?_append_left hj2, Nat.mod_eq_of_lt hj2]
    · push_neg at hj2
      rw [List.getElem?_append_right hj2]
      have hsm : (k + 1) * G.length = k * G.length + G.length := Nat.succ_mul k G.length
      have hlt : j - G.length < k * G.length := by omega
      have ihh := ih (j - G.length) hlt
      rw [repeatTrailing] at ihh
      rw [ihh, Nat.mod_eq_sub_mod hj2]

theorem broadcastRev_nil_right (l : List Nat) : broadcastRev l [] = some l := by
  cases l <;> rfl

theorem broadcast_batch_one_vec (t : Shape) (p : Nat) :
    broadcast (t ++ [1]) [p] = some (t ++ [p]) := by
  simp [broadcast, List.reverse_append, broadcastRev, bdim_one_left,
    broadcastRev_nil_right]

/-! ### Claim theorems for the model and guide -/

/-- C1 corrected: for every random-effect group of a successful model
evaluation, with `group_width = alpha.shape[-1]`, the model samples
`G_<label>` with shape `batch ++ [group_width]` and the coefficient
vector `<label>` with shape `batch ++ [group_width * group_size]` (not
`batch ++ [group_size]`), drawn from a Normal whose scale is the
trailing vector of `group_width` standard deviations tiled `group_size`
times, so entry `j` carries standard deviation `G[j % group_width]`:
the repetition interleaves at stride `group_width` instead of
broadcasting each standard deviation over a contiguous block of rows. -/
theorem re_group_tiled_coefficients (c : ModelCfg) (tr : Trace)
    (h : runModel c = some tr) (r : ReGroup) (hr : r ∈ c.re)
    (gp : Nat) (hgp : r.alphaShape.getLast? = some gp) :
    ((String.append "G_" r.name, c.tauShape ++ [gp]) ∈ tr.sites ∧
      (r.name, c.tauShape ++ [gp * r.groupSize]) ∈ tr.sites) ∧
    (∀ G : List ℚ, G.length = gp →
      (repeatTrailing G r.groupSize).length = gp * r.groupSize ∧
      ∀ j, j < gp * r.groupSize →
        (repeatTrailing G r.groupSize)[j]? = G[j % gp]?) := by
  obtain ⟨tauSites, fs, fblocks, rsites, rblocks, h1, h2, hw, hs⟩ := runModel_inv c tr h
  have hm := reLoop_mem c.tauShape c.re (rsites, rblocks) h2 r hr gp hgp
  refine ⟨⟨?_, ?_⟩, ?_⟩
  · rw [hs]
    exact List.mem_append_left _ (List.mem_append_right _ hm.1)
  · rw [hs]
    exact List.mem_append_left _ (List.mem_append_right _ hm.2)
  · intro G hG
    constructor
    · rw [repeatTrailing_length, hG, Nat.mul_comm]
    · intro j hj
      have hb : j < r.groupSize * G.length := by rw [hG, Nat.mul_comm]; exact hj
      have hq := repeatTrailing_getQ G r.groupSize j hb
      rw [hG] at hq
      exact hq

/-- C1 counterexample: with `alpha` of trailing width 2 and
`group_size = 2` the coefficient site "u" has shape `[4]`, not the
claimed `batch_shape + (group_size,) = [2]`; and tiling the standard
deviations `[3, 5]` twice gives the interleaved `[3, 5, 3, 5]`, not the
contiguous `[3, 3, 5, 5]` required by the claimed column semantics. -/
theorem re_group_claimed_shape_counterexample :
    tracedShape (ModelCfg.mk [] 4 4 [] [ReGroup.mk "u" 2 [2] [2]] true [] false [] []
        Resp.normal "y") "u" = some [4] ∧
    ¬ ([4] : Shape) = [2] ∧
    repeatTrailing [(3 : ℚ), 5] 2 = [3, 5, 3, 5] ∧
    ¬ repeatTrailing [(3 : ℚ), 5] 2 = [3, 3, 5, 5] :=
  ⟨by decide, by decide, by decide, by decide⟩

/-- Witness for the corrected C1 at a concrete single-group
configuration (`group_width = 2`, `group_size = 3`). -/
theorem re_group_tiled_coefficients_witness :
    ((String.append "G_" "u", ([2] : Shape)) ∈
        [(String.append "G_" "u", ([2] : Shape)), ("u", [6]), ("y", [6])] ∧
      ("u", ([6] : Shape)) ∈
        [(String.append "G_" "u", ([2] : Shape)), ("u", [6]), ("y", [6])]) ∧
    (∀ G : List ℚ, G.length = 2 →
      (repeatTrailing G 3).length = 6 ∧
      ∀ j, j < 6 → (repeatTrailing G 3)[j]? = G[j % 2]?) :=
  re_group_tiled_coefficients
    (ModelCfg.mk [] 6 6 [] [ReGroup.mk "u" 3 [2] [2]] true [] false [] [] Resp.normal "y")
    (Trace.mk [(String.append "G_" "u", [2]), ("u", [6]), ("y", [6])] 0
      [("u", [6, 1])] [6, 1] [6])
    (by decide) (ReGroup.mk "u" 3 [2] [2]) (by decide) 2 (by decide)

/-- C2 corrected: when `p` equals the sum of the per-unit widths with a
random-effect group contributing `group_width * group_size`
(`group_width = alpha.shape[-1]`) rather than `group_size` alone, the
model builds the concatenated coefficient vector with shape
`batch_shape ++ [p, 1]` and a response whose trailing axis has exactly
`n` elements, for every batch shape including the unbatched case. -/
theorem shape_invariant_holds (t : Shape) (n p : Nat)
    (gs : List (FixedGroup × Nat)) (rs : List (ReGroup × Nat))
    (obsKnown alphaBetaGiven : Bool) (obsSd a0 b0 : Shape) (resp : Resp) (lbl : String)
    (hfix : ∀ g ∈ gs, (broadcast (t ++ [1]) g.1.sqrtlambdaShape).bind
        (fun inner => broadcast g.1.meanShape inner) = some (t ++ [g.2]))
    (hre : ∀ x ∈ rs, x.1.alphaShape.getLast? = some x.2 ∧
        expandsTo x.1.alphaShape (t ++ [x.2]) = true ∧
        expandsTo x.1.betaShape (t ++ [x.2]) = true)
    (htau : (if obsKnown then expandsTo obsSd t
             else alphaBetaGiven && expandsTo a0 t && expandsTo b0 t) = true)
    (hne : (gs.map Prod.snd ++ rs.map (fun x => x.2 * x.1.groupSize)) ≠ [])
    (hp : p = (gs.map Prod.snd ++ rs.map (fun x => x.2 * x.1.groupSize)).sum)
    (hresp : resp ≠ Resp.other) :
    (runModel ⟨t, n, p, gs.map Prod.fst, rs.map Prod.fst, obsKnown, obsSd,
        alphaBetaGiven, a0, b0, resp, lbl⟩).map Trace.wShape = some (t ++ [p, 1]) ∧
    (runModel ⟨t, n, p, gs.map Prod.fst, rs.map Prod.fst, obsKnown, obsSd,
        alphaBetaGiven, a0, b0, resp, lbl⟩).map Trace.respShape = some (t ++ [n]) := by
  rw [runModel_spec t n p gs rs obsKnown alphaBetaGiven obsSd a0 b0 resp lbl
    hfix hre htau hne hp hresp]
  exact ⟨rfl, rfl⟩

/-- C2 counterexample: a configuration whose only group is a
random-effect group with `alpha.shape[-1] = 2` and `group_size = 1`
satisfies the claim's precondition (per-unit widths summed with random
width `group_size` equal `p = 1`), yet the evaluation raises a shape
mismatch: no coefficient vector of shape `(p, 1)` and no response are
produced. -/
theorem shape_invariant_counterexample :
    ((ModelCfg.mk [] 1 1 [] [ReGroup.mk "u" 1 [2] [2]] true [] false [] [] Resp.normal
        "y").fixed.length = 0 ∧
      ((ModelCfg.mk [] 1 1 [] [ReGroup.mk "u" 1 [2] [2]] true [] false [] [] Resp.normal
        "y").re.map ReGroup.groupSize).sum =
        (ModelCfg.mk [] 1 1 [] [ReGroup.mk "u" 1 [2] [2]] true [] false [] [] Resp.normal
          "y").p) ∧
    runModel (ModelCfg.mk [] 1 1 [] [ReGroup.mk "u" 1 [2] [2]] true [] false [] []
      Resp.normal "y") = none :=
  ⟨⟨by decide, by decide⟩, by decide⟩

/-- Witness for the corrected C2 at a concrete mixed configuration
(one fixed-effect group of width 2, one random-effect group with
`group_width = 1`, `group_size = 3`, so `p = 5`), unbatched. -/
theorem shape_invariant_holds_witness :
    (runModel (ModelCfg.mk [] 7 5 [FixedGroup.mk "w" [] [2]] [ReGroup.mk "u" 3 [1] [1]]
        true [] false [] [] Resp.normal "y")).map Trace.wShape = some ([5, 1] : Shape) ∧
    (runModel (ModelCfg.mk [] 7 5 [FixedGroup.mk "w" [] [2]] [ReGroup.mk "u" 3 [1] [1]]
        true [] false [] [] Resp.normal "y")).map Trace.respShape = some ([7] : Shape) :=
  shape_invariant_holds [] 7 5 [(FixedGroup.mk "w" [] [2], 2)] [(ReGroup.mk "u" 3 [1] [1], 1)]
    true false [] [] [] Resp.normal "y" (by decide) (by decide) (by decide) (by decide)
    (by decide) (by decide)

/-- C4: for every configuration of fixed-effect groups (1-D coefficient
shapes) and either noise mode (known `obs_sd`, or unknown with
`alpha_0`/`beta_0`), the guide invoked with the corresponding `obs_sd`
and `w_sizes` registers exactly the model's latent sites — "tau" when
the noise is unknown, plus one site per coefficient group — with
identical shapes and batch dimensions; the model's site list is the
guide's extended by the response, and the guide never samples the
response variable. -/
theorem guide_matches_model_sites (t : Shape) (n p : Nat)
    (gs : List (FixedGroup × Nat)) (obsKnown : Bool) (obsSd a0 b0 : Shape)
    (resp : Resp) (lbl : String)
    (hfix : ∀ g ∈ gs, (broadcast (t ++ [1]) g.1.sqrtlambdaShape).bind
        (fun inner => broadcast g.1.meanShape inner) = some (t ++ [g.2]))
    (htau : (if obsKnown then expandsTo obsSd t
             else expandsTo a0 t && expandsTo b0 t) = true)
    (hne : gs ≠ []) (hp : p = (gs.map Prod.snd).sum) (hresp : resp ≠ Resp.other)
    (hlbl : lbl ∉ gs.map (fun g => g.1.name)) (hlbl2 : lbl ≠ "tau") :
    runGuide t obsKnown obsSd (gs.map (fun g => (g.1.name, ([g.2] : Shape)))) =
      some ((if obsKnown then [] else [("tau", t)]) ++
        gs.map (fun g => (g.1.name, t ++ [g.2]))) ∧
    (runModel ⟨t, n, p, gs.map Prod.fst, [], obsKnown, obsSd, !obsKnown, a0, b0,
        resp, lbl⟩).map Trace.sites =
      some (((if obsKnown then [] else [("tau", t)]) ++
        gs.map (fun g => (g.1.name, t ++ [g.2]))) ++ [(lbl, t ++ [n])]) ∧
    lbl ∉ ((if obsKnown then [] else [("tau", t)]) ++
        gs.map (fun g => (g.1.name, t ++ [g.2]))).map Prod.fst := by
  refine ⟨?_, ?_, ?_⟩
  · have hguide := runGuide_spec t obsKnown obsSd (gs.map (fun g => (g.1.name, g.2)))
      (fun hk => by rw [hk] at htau; simpa using htau)
    rw [List.map_map, List.map_map] at hguide
    exact hguide
  · have hmodel := runModel_spec t n p gs [] obsKnown (!obsKnown) obsSd a0 b0 resp lbl
      hfix (fun x hx => absurd hx (List.not_mem_nil x))
      (by cases obsKnown <;> simp_all)
      (by
        simp only [List.map_nil, List.append_nil, ne_eq, List.map_eq_nil_iff]
        exact hne)
      (by simpa using hp) hresp
    simp only [List.map_nil] at hmodel
    rw [hmodel]
    simp [List.append_assoc]
  · intro hmem
    rcases List.mem_map.mp hmem with ⟨pr, hpr, hfst⟩
    rcases List.mem_append.mp hpr with hA | hB
    · cases obsKnown with
      | true => simp at hA
      | false =>
        simp only [Bool.false_eq_true, if_false, List.mem_singleton] at hA
        subst hA
        exact hlbl2 hfst.symm
    · rcases List.mem_map.mp hB with ⟨g, hg, hgeq⟩
      apply hlbl
      rw [List.mem_map]
      refine ⟨g, hg, ?_⟩
      rw [← hfst, ← hgeq]

/-- Witness for C4 at a concrete unknown-noise configuration: both
model and guide sample "tau" and "w", with matching shapes, and the
model alone adds the response "y". -/
theorem guide_matches_model_sites_witness :
    runGuide [2] false [] [("w", ([3] : Shape))] =
      some [("tau", ([2] : Shape)), ("w", [2, 3])] ∧
    (runModel (ModelCfg.mk [2] 5 3 [FixedGroup.mk "w" [] [3]] [] false [] true [] []
        Resp.normal "y")).map Trace.sites =
      some [("tau", ([2] : Shape)), ("w", [2, 3]), ("y", [2, 5])] ∧
    "y" ∉ ([("tau", ([2] : Shape)), ("w", [2, 3])]).map Prod.fst :=
  guide_matches_model_sites [2] 5 3 [(FixedGroup.mk "w" [] [3], 3)] false [] [] []
    Resp.normal "y" (by decide) (by decide) (by decide) (by decide) (by decide)
    (by decide) (by decide)

/-- C5: with a known `obs_sd` and non-null `alpha_0`/`beta_0` supplied
together, the model evaluation completes without raising, emits exactly
one configuration warning, never samples "tau" (the supplied `obs_sd`
is used unchanged), and still produces the response as its final sample
site — for every design shape and every `alpha_0`/`beta_0`. -/
theorem warning_path_deterministic (t : Shape) (n p : Nat) (obsSd a0 b0 : Shape)
    (lbl : String) (hobs : expandsTo obsSd t = true) (hlbl : lbl ≠ "tau") :
    ∃ tr, runModel ⟨t, n, p, [FixedGroup.mk "w" [] [p]], [], true, obsSd, true, a0, b0,
        Resp.normal, lbl⟩ = some tr ∧
      tr.warnings = 1 ∧
      "tau" ∉ tr.sites.map Prod.fst ∧
      tr.sites.getLast? = some (lbl, t ++ [n]) := by
  have hfix : ∀ g ∈ [(FixedGroup.mk "w" [] [p], p)],
      (broadcast (t ++ [1]) g.1.sqrtlambdaShape).bind
        (fun inner => broadcast g.1.meanShape inner) = some (t ++ [g.2]) := by
    intro g hg
    rw [List.mem_singleton] at hg
    subst hg
    simp [broadcast_batch_one_vec, broadcast_nil_left]
  have hmodel := runModel_spec t n p [(FixedGroup.mk "w" [] [p], p)] [] true true obsSd
    a0 b0 Resp.normal lbl hfix (fun x hx => absurd hx (List.not_mem_nil x))
    (by simpa using hobs) (by simp) (by simp) (by decide)
  refine ⟨_, hmodel, rfl, ?_, ?_⟩
  · intro hmem
    rw [List.mem_map] at hmem
    obtain ⟨pr, hpr, hfst⟩ := hmem
    simp only [List.map_nil, List.nil_append, List.flatten_nil, List.append_nil,
      List.map_cons, List.mem_append, List.mem_singleton, List.mem_cons,
      List.not_mem_nil, or_false, if_true] at hpr
    rcases hpr with h | h
    · subst h
      simp at hfst
    · subst h
      exact hlbl hfst
  · exact List.getLast?_concat _

/-- Witness for C5 at a concrete design and `alpha_0`. -/
theorem warning_path_deterministic_witness :
    ∃ tr, runModel (ModelCfg.mk [2] 3 2 [FixedGroup.mk "w" [] [2]] [] true [] true [5] []
        Resp.normal "y") = some tr ∧
      tr.warnings = 1 ∧
      "tau" ∉ tr.sites.map Prod.fst ∧
      tr.sites.getLast? = some ("y", ([2] : Shape) ++ [3]) :=
  warning_path_deterministic [2] 3 2 [] [5] [] "y" (by decide) (by decide)

/-- C10: in every successful model evaluation the regression vector is
the concatenation of all fixed-effect blocks (in `w_sqrtlambdas`
iteration order) followed by all random-effect blocks (in
`re_group_sizes` iteration order); no configuration can place a
random-effect block before a fixed-effect block. -/
theorem w_concat_fixed_before_random (c : ModelCfg) (tr : Trace)
    (h : runModel c = some tr) :
    tr.wBlocks.map Prod.fst = c.fixed.map FixedGroup.name ++ c.re.map ReGroup.name := by
  obtain ⟨tauSites, fs, fblocks, rsites, rblocks, h1, h2, hw, hs⟩ := runModel_inv c tr h
  rw [hw, List.map_append, fixedLoop_block_names _ _ _ _ h1,
    reLoop_block_names _ _ _ _ h2]

/-- Witness for C10 at a concrete mixed configuration: the block order
is `["w", "u"]`, fixed before random. -/
theorem w_concat_fixed_before_random_witness :
    (Trace.mk [("w", ([2, 3] : Shape)), (String.append "G_" "u", [2, 1]), ("u", [2, 1]),
        ("y", [2, 5])] 1 [("w", [2, 3, 1]), ("u", [2, 1, 1])] [2, 4, 1] [2, 5]).wBlocks.map
        Prod.fst =
      (ModelCfg.mk [2] 5 4 [FixedGroup.mk "w" [] [3]] [ReGroup.mk "u" 1 [1] [1]] true []
          true [7] [] Resp.normal "y").fixed.map FixedGroup.name ++
        (ModelCfg.mk [2] 5 4 [FixedGroup.mk "w" [] [3]] [ReGroup.mk "u" 1 [1] [1]] true []
          true [7] [] Resp.normal "y").re.map ReGroup.name :=
  w_concat_fixed_before_random _ _ (by decide)

end BayesLinear
